import Mathlib

/-!
Shallow embedding of the monitor state model and mode-resolution engine of
Hyprmonitor (`src/app.rs`, `src/monitor.rs`), together with proofs of the
specified properties.

Modelling conventions.

* Refresh rates and scale factors are IEEE `f64` in the source; they are
  modelled as exact rationals (`ℚ`).  Every numeric constant that the source
  compares against (`0.01`, `0.1`, `0.25`, `60.0`, ...) is an exact decimal,
  so the comparisons performed by the source coincide with the rational ones.
  Non-finite `f64` values (`inf`, `NaN`) have no rational counterpart and are
  outside the model.
* Rational values are constructed with `Rat.divInt`/`mkRat` and compared with
  the order on `ℚ`; subtraction and absolute value are spelled out on
  numerators and denominators (`qsub`, `qabs`) so that every definition
  evaluates by kernel reduction.  `qsub_eq` and `qabs_eq` identify them with
  the ordinary operations on `ℚ`.
* `BTreeMap<String, Vec<f64>>` is modelled as an association list whose keys
  are kept in strictly increasing lexicographic order by insertion
  (`insertRate`), mirroring the B-tree's key order.  Rust compares `String`s
  byte-wise; for the ASCII resolution labels involved this agrees with the
  code-point order on `Char` used here.
* The raw JSON record is modelled as a structure holding exactly the fields
  the parser reads, with `Option` for fields that may be absent or of the
  wrong JSON type.
* The external command executor (`commands::execute_hyprctl`) reports a
  boolean; it is modelled by passing that boolean outcome as an argument and
  returning the list of issued commands alongside the new state.
-/

namespace Hyprmonitor

/-! ## Exact rational arithmetic helpers -/

/-- Subtraction on `ℚ`, written out on numerators and denominators so that it
evaluates by kernel reduction (the library operation is `@[irreducible]`).
`qsub_eq` proves it equal to `a - b`. -/
def qsub (a b : ℚ) : ℚ :=
  Rat.divInt (a.num * (b.den : ℤ) - b.num * (a.den : ℤ)) ((a.den : ℤ) * (b.den : ℤ))

/-- Absolute value on `ℚ`, kernel-computable.  `qabs_eq` proves it equal to
`|a|`. -/
def qabs (a : ℚ) : ℚ := if a < 0 then Rat.divInt (-a.num) (a.den : ℤ) else a

/-- Multiplication of a rational by an integer, kernel-computable. -/
def qmulInt (a : ℚ) (k : ℤ) : ℚ := Rat.divInt (a.num * k) (a.den : ℤ)

/-- The dedup tolerance `0.01` from `parse_modes`. -/
def dedupTol : ℚ := mkRat 1 100

/-- The refresh-rate matching tolerance `0.1` from `find_current_mode`. -/
def matchTol : ℚ := mkRat 1 10

/-! ## Lexicographic key order

Rust's `BTreeMap<String, _>` orders keys by the byte-wise `Ord` on `String`.
The resolution labels are ASCII, where the byte order agrees with the
code-point order on `Char`. -/

/-- Byte-wise (code-point-wise) lexicographic strict order on key contents. -/
def keyLtChars : List Char → List Char → Bool
  | [], [] => false
  | [], _ :: _ => true
  | _ :: _, [] => false
  | a :: s, b :: t => if a < b then true else if b < a then false else keyLtChars s t

/-- Lexicographic strict order on map keys. -/
def keyLt (a b : String) : Bool := keyLtChars a.data b.data

/-! ## String scanning helpers (models of the `str` library calls used) -/

/-- Model of `str::split_once(c)` on the character list: split at the first
occurrence of `c`, if any. -/
def splitAtChar (c : Char) : List Char → Option (List Char × List Char)
  | [] => none
  | a :: t =>
    if a = c then some ([], t)
    else (splitAtChar c t).map (fun p => (a :: p.1, p.2))

/-- Model of `str::split_once(c)` on strings. -/
def splitOnceAt (c : Char) (s : String) : Option (String × String) :=
  (splitAtChar c s.data).map (fun p => (String.mk p.1, String.mk p.2))

/-- Helper for `splitAll`: accumulates the current segment in reverse. -/
def splitAllAux (c : Char) (acc : List Char) : List Char → List (List Char)
  | [] => [acc.reverse]
  | a :: t => if a = c then acc.reverse :: splitAllAux c [] t else splitAllAux c (a :: acc) t

/-- Model of `str::split(c)`: all segments, empty segments included. -/
def splitAll (c : Char) (s : String) : List (List Char) := splitAllAux c [] s.data

/-- Helper for `trimEndHz`: strips leading `'z','H'` pairs of the reversed
character list. -/
def trimHzRev : List Char → List Char
  | 'z' :: 'H' :: t => trimHzRev t
  | l => l

/-- Model of `str::trim_end_matches("Hz")`: repeatedly strip a trailing
`"Hz"`. -/
def trimEndHz (s : String) : String := String.mk ((trimHzRev s.data.reverse).reverse)

/-! ## Numeric parsing (models of `parse::<i64>` and `parse::<f64>`) -/

/-- Numeric value of a decimal digit character. -/
def digitVal (a : Char) : Nat := a.toNat - 48

/-- Longest digit run at the front, and the rest. -/
def spanDigits : List Char → List Char × List Char
  | [] => ([], [])
  | a :: t =>
    if a.isDigit then
      let p := spanDigits t
      (a :: p.1, p.2)
    else ([], a :: t)

/-- Value of a digit run, most significant first. -/
def digitsValAux (acc : Nat) : List Char → Nat
  | [] => acc
  | a :: t => digitsValAux (acc * 10 + digitVal a) t

/-- Value of a digit run. -/
def digitsVal (l : List Char) : Nat := digitsValAux 0 l

/-- A non-empty all-digit run, parsed; `none` otherwise. -/
def parseNatDigits (l : List Char) : Option Nat :=
  if l ≠ [] ∧ l.all Char.isDigit = true then some (digitsVal l) else none

/-- `i64::MAX`, the distance assigned to unparsable resolution labels. -/
def i64MaxConst : Int := 2 ^ 63 - 1

/-- Model of `str::parse::<i64>`: optional sign, a non-empty digit run, and
the `i64` range check. -/
def parseI64 (l : List Char) : Option Int :=
  match l with
  | '+' :: t => (parseNatDigits t).bind
      (fun n => if (n : Int) ≤ i64MaxConst then some ((n : Int)) else none)
  | '-' :: t => (parseNatDigits t).bind
      (fun n => if (n : Int) ≤ 2 ^ 63 then some (-(n : Int)) else none)
  | t => (parseNatDigits t).bind
      (fun n => if (n : Int) ≤ i64MaxConst then some ((n : Int)) else none)

/-- Exponent digits with optional sign (the part after `e`/`E`). -/
def parseSignedExp : List Char → Option Int
  | '+' :: t => (parseNatDigits t).map (fun n => ((n : Int)))
  | '-' :: t => (parseNatDigits t).map (fun n => -((n : Int)))
  | t => (parseNatDigits t).map (fun n => ((n : Int)))

/-- Optional exponent suffix: empty means exponent `0`; anything else must be
`e`/`E` followed by signed digits. -/
def parseExpPart : List Char → Option Int
  | [] => some 0
  | 'e' :: t => parseSignedExp t
  | 'E' :: t => parseSignedExp t
  | _ => none

/-- The exact rational denoted by a parsed decimal: sign, mantissa digits
(integer and fractional parts concatenated), number of fractional digits, and
decimal exponent. -/
def decToRat (sign : Bool) (mant : Nat) (fracLen : Nat) (e : Int) : ℚ :=
  let n : Int := if sign then -((mant : Int)) else ((mant : Int))
  if 0 ≤ e then Rat.divInt (n * (10 : Int) ^ e.toNat) ((10 : Int) ^ fracLen)
  else Rat.divInt n ((10 : Int) ^ (fracLen + (-e).toNat))

/-- Unsigned part of the `f64` grammar: `Digit+ | Digit+ '.' Digit* |
Digit* '.' Digit+`, then an optional exponent. -/
def parseDecCore (sign : Bool) (l : List Char) : Option ℚ :=
  let p := spanDigits l
  match p.2 with
  | '.' :: r2 =>
    let q := spanDigits r2
    if p.1 = [] ∧ q.1 = [] then none
    else (parseExpPart q.2).map (fun e => decToRat sign (digitsVal (p.1 ++ q.1)) q.1.length e)
  | rest =>
    if p.1 = [] then none
    else (parseExpPart rest).map (fun e => decToRat sign (digitsVal p.1) 0 e)

/-- Model of `str::parse::<f64>` restricted to the finite decimal/scientific
notation, evaluated exactly over `ℚ`.  The `inf`/`nan` spellings denote
non-finite values with no rational counterpart and are outside the model, as
is the rounding of an exact decimal to the nearest double. -/
def parseF64 (s : String) : Option ℚ :=
  match s.data with
  | '+' :: t => parseDecCore false t
  | '-' :: t => parseDecCore true t
  | t => parseDecCore false t

/-! ## The mode catalog (`BTreeMap<String, Vec<f64>>`) -/

/-- Association list standing in for `BTreeMap<String, Vec<f64>>`; keys are
kept in strictly increasing `keyLt` order by `insertRate`. -/
abbrev Catalog := List (String × List ℚ)

/-- Model of `BTreeMap::get`. -/
def lookupKey (k : String) : Catalog → Option (List ℚ)
  | [] => none
  | p :: t => if k = p.1 then some p.2 else lookupKey k t

/-- Model of `modes.entry(res).or_insert_with(Vec::new).push(rate)`: append
the rate to the resolution's list, creating the key at its ordered position
when absent. -/
def insertRate (k : String) (r : ℚ) : Catalog → Catalog
  | [] => [(k, [r])]
  | p :: t =>
    if k = p.1 then (p.1, p.2 ++ [r]) :: t
    else if keyLt k p.1 then (k, [r]) :: p :: t
    else p :: insertRate k r t

/-! ## The raw monitor record

The JSON accesses performed by `parse_single_monitor`, modelled field by
field.  A `none` stands for an absent field or one of the wrong JSON type
(the `as_str`/`as_bool`/`as_i64`/`as_f64` calls).  `availableModes` holds the
string entries of the `availableModes` array; an absent array or non-string
entries contribute nothing in the source (`as_array` / `filter_map(as_str)`)
and are modelled by their absence from the list. -/
structure RawRecord where
  name : Option String
  disabled : Option Bool
  scale : Option ℚ
  width : Option Int
  height : Option Int
  refreshRate : Option ℚ
  availableModes : List String
deriving DecidableEq, Repr

/-- One `availableModes` entry: split on `'@'`, strip a trailing `"Hz"` from
the rate portion, parse the rate. -/
def parseMode (s : String) : Option (String × ℚ) :=
  match splitOnceAt '@' s with
  | none => none
  | some p => (parseF64 (trimEndHz p.2)).map (fun r => (p.1, r))

/-- One iteration of the collection loop in `parse_modes`: a mode string that
parses is pushed into the map, a malformed one is skipped. -/
def collectStep (m : Catalog) (s : String) : Catalog :=
  match parseMode s with
  | some p => insertRate p.1 p.2 m
  | none => m

/-- The collection loop of `parse_modes`. -/
def collectModes (l : List String) : Catalog := l.foldl collectStep []

/-- One step of the descending insertion sort modelling
`rates.sort_by(|a, b| b.partial_cmp(a) ...)` (a stable descending sort; on
rate values, which carry no identity, stability is unobservable). -/
def insertDesc (a : ℚ) : List ℚ → List ℚ
  | [] => [a]
  | b :: t => if b < a then a :: b :: t else b :: insertDesc a t

/-- Descending sort of a rate list. -/
def sortDesc (l : List ℚ) : List ℚ := l.foldr insertDesc []

/-- The `dedup_by` predicate `(a - b).abs() < 0.01`. -/
def nearEq (a b : ℚ) : Bool := decide (qabs (qsub a b) < dedupTol)

/-- Model of `Vec::dedup_by`: each element is compared against the last
retained element and dropped when `nearEq`; the first element of a run is the
retained representative. -/
def dedupNearLoop (kept : ℚ) : List ℚ → List ℚ
  | [] => []
  | a :: t => if nearEq a kept then dedupNearLoop kept t else a :: dedupNearLoop a t

/-- `Vec::dedup_by` with the `nearEq` bucket predicate. -/
def dedupNear : List ℚ → List ℚ
  | [] => []
  | a :: t => a :: dedupNearLoop a t

/-- The per-resolution normalisation of `parse_modes`: sort descending, then
dedup within `0.01`. -/
def normalizeRates (l : List ℚ) : List ℚ := dedupNear (sortDesc l)

/-- Model of `App::parse_modes`: collect the parsable mode strings into the
map, then sort and dedup every rate list. -/
def parse_modes (rec : RawRecord) : Catalog :=
  (collectModes rec.availableModes).map (fun p => (p.1, normalizeRates p.2))

/-! ## Scale parsing -/

/-- Model of `f64::round` (round half away from zero), on the positive and
negative halves separately, by integer arithmetic on the reduced fraction. -/
def rustRound (q : ℚ) : Int :=
  if 0 ≤ q.num then ((2 * q.num.toNat + q.den) / (2 * q.den) : Nat)
  else -(((2 * (-q.num).toNat + q.den) / (2 * q.den) : Nat) : Int)

/-- The `0.1` floor applied to the raw scale. -/
def scaleFloor : ℚ := mkRat 1 10

/-- Model of `App::parse_scale`: default `1.0`, floor at `0.1` (`f64::max`),
times `100`, rounded to the nearest integer. -/
def parse_scale (rec : RawRecord) : Int :=
  rustRound (qmulInt (max (rec.scale.getD 1) scaleFloor) 100)

/-! ## Best-match selection -/

/-- Model of `App::resolution_distance`: split the label on `'x'`, keep the
segments that parse as `i64`; exactly two such segments give the squared
Euclidean distance to the target, anything else gives `i64::MAX`. -/
def resolution_distance (res : String) (tw th : Int) : Int :=
  match (splitAll 'x' res).filterMap parseI64 with
  | [w, h] => (w - tw) ^ 2 + (h - th) ^ 2
  | _ => i64MaxConst

/-- Index of the first minimum of `f` over a list of keys (`0` on the empty
list), modelling `Iterator::min_by_key`, whose contract returns the first of
equally minimal elements, composed with `.map(|(i, _)| i).unwrap_or(0)`. -/
def minIdx (f : String → Int) : List String → Nat
  | [] => 0
  | [_] => 0
  | k :: t => if f k ≤ f (t.getD (minIdx f t) (String.mk [])) then 0 else minIdx f t + 1

/-- Model of `Iterator::position`: index of the first element satisfying the
predicate. -/
def position (p : ℚ → Bool) : List ℚ → Option Nat
  | [] => none
  | a :: t => if p a then some 0 else (position p t).map (fun i => i + 1)

/-- The refresh-rate matching predicate `(rate - current_rate).abs() < 0.1`. -/
def rateMatches (target r : ℚ) : Bool := decide (qabs (qsub r target) < matchTol)

/-- The key list of a catalog, in map order (`modes.keys()`). -/
def modeKeysC (m : Catalog) : List String := m.map Prod.fst

/-- The resolution index chosen by `find_current_mode`: first minimiser of
the squared distance to the reported width/height. -/
def chooseResIdx (rec : RawRecord) (modes : Catalog) : Nat :=
  minIdx (fun s => resolution_distance s (rec.width.getD 0) (rec.height.getD 0))
    (modeKeysC modes)

/-- The refresh index chosen by `find_current_mode` for a resolution:
`modes.get(res).and_then(|rates| rates.iter().position(..)).unwrap_or(0)`. -/
def chooseRefreshIdx (rec : RawRecord) (modes : Catalog) (res : String) : Nat :=
  ((lookupKey res modes).bind (position (rateMatches (rec.refreshRate.getD 60)))).getD 0

/-- Model of `App::find_current_mode`. -/
def find_current_mode (rec : RawRecord) (modes : Catalog) (active : Bool) : Nat × Nat :=
  if !active || modes.isEmpty then (0, 0)
  else
    (chooseResIdx rec modes,
     chooseRefreshIdx rec modes
       ((modeKeysC modes).getD (chooseResIdx rec modes) (String.mk [])))

/-! ## The data model -/

/-- `monitor.rs::Monitor`. -/
structure Monitor where
  name : String
  active : Bool
  modes : Catalog
deriving DecidableEq, Repr

/-- `monitor.rs::MonitorConfig`. -/
structure MonitorConfig where
  resolution : String
  refresh_rate : ℚ
  scale : Int
  resolution_index : Nat
  refresh_rate_index : Nat
  dpms_on : Bool
deriving DecidableEq, Repr

/-- `MonitorConfig::scale_as_float`. -/
def scale_as_float (c : MonitorConfig) : ℚ := Rat.divInt c.scale 100

/-- Model of `App::parse_single_monitor`.  The source wraps the pair in an
always-`Ok` `io::Result`; the wrapper is dropped here. -/
def parse_single_monitor (rec : RawRecord) : Option (Monitor × MonitorConfig) :=
  match rec.name with
  | none => none
  | some name =>
    if name.data.isEmpty then none
    else
      let modes := parse_modes rec
      let active := !(rec.disabled.getD true)
      let scale := parse_scale rec
      let idx := find_current_mode rec modes active
      let resolution := (modeKeysC modes).getD idx.1 (String.mk [])
      let refresh_rate :=
        ((lookupKey resolution modes).bind (fun rates => rates[idx.2]?)).getD 60
      some ({ name := name, active := active, modes := modes },
            { resolution := resolution, refresh_rate := refresh_rate, scale := scale,
              resolution_index := idx.1, refresh_rate_index := idx.2, dpms_on := true })

/-! ## Configuration state machine -/

/-- `SCALE_STEP`. -/
def SCALE_STEP : Int := 25

/-- `MIN_SCALE`. -/
def MIN_SCALE : Int := 50

/-- `i32::MIN`, the lower bound of the `scale` field's type. -/
def i32MinConst : Int := -(2 ^ 31)

/-- `i32::MAX`, the upper bound of the `scale` field's type. -/
def i32MaxConst : Int := 2 ^ 31 - 1

/-- Two's-complement wrap-around into the `i32` range: the release-profile
semantics of an overflowing `i32` addition (a debug build panics there
instead, so in neither profile can the program produce a value outside the
`i32` range). -/
def wrap32 (x : Int) : Int := (x + 2 ^ 31) % 2 ^ 32 - 2 ^ 31

/-- Model of `App::cycle_resolution` on one `(Monitor, MonitorConfig)` pair.
The unreachable defaults (`getD`) mirror indexing that cannot fail: the new
index is taken modulo the non-empty key count, and the new resolution is a
key of the map. -/
def cycle_resolution (m : Monitor) (c : MonitorConfig) (increase : Bool) : MonitorConfig :=
  let resolutions := modeKeysC m.modes
  if resolutions.isEmpty then c
  else
    let n := resolutions.length
    let i := if increase then (c.resolution_index + 1) % n
             else (c.resolution_index + n - 1) % n
    let res := resolutions.getD i (String.mk [])
    let c2 := { c with resolution_index := i, resolution := res, refresh_rate_index := 0 }
    match lookupKey res m.modes with
    | some rates => { c2 with refresh_rate := rates.headD 60 }
    | none => c2

/-- Model of `App::cycle_refresh_rate` on one pair.  `rates[i]` cannot be out
of range since `i` is reduced modulo the non-empty length; `getD 60` mirrors
that impossibility. -/
def cycle_refresh_rate (m : Monitor) (c : MonitorConfig) (increase : Bool) : MonitorConfig :=
  match lookupKey c.resolution m.modes with
  | none => c
  | some rates =>
    if rates.isEmpty then c
    else
      let n := rates.length
      let i := if increase then (c.refresh_rate_index + 1) % n
               else (c.refresh_rate_index + n - 1) % n
      { c with refresh_rate_index := i, refresh_rate := rates.getD i 60 }

/-- Model of `App::adjust_scale` on one config.  The `scale` field is an
`i32` in the source, so the addition `config.scale + SCALE_STEP` is `i32`
arithmetic that wraps at the type boundary, hence the explicit `wrap32`
(`.max(MIN_SCALE)` on two in-range values cannot overflow). -/
def adjust_scale (c : MonitorConfig) (increase : Bool) : MonitorConfig :=
  let w := wrap32 (c.scale + (if increase then SCALE_STEP else -SCALE_STEP))
  { c with scale := max w MIN_SCALE }

/-! ## App-level operations -/

/-- The commands handed to `commands::execute_hyprctl` by the operations
modelled here, with the formatted fields as payload. -/
inductive HyprCommand where
  | keywordMonitorPlaced (name res : String) (rate scaleFloat : ℚ) (direction other : String)
  | keywordMonitorMirror (name res : String) (rate scaleFloat : ℚ) (other : String)
  | dispatchDpms (turnOn : Bool) (name : String)
deriving DecidableEq, Repr

/-- The parts of `App` the modelled operations touch: the parallel monitor
and config lists, and the monitor-list selection. -/
structure AppState where
  monitors : List Monitor
  configs : List MonitorConfig
  selectedMonitor : Option Nat
deriving DecidableEq, Repr

/-- Helper for `get_other_monitor_info`: scan from index `i`. -/
def findOtherAux (currentIdx : Nat) : Nat → List Monitor → Option (Nat × String)
  | _, [] => none
  | i, m :: t =>
    if i ≠ currentIdx ∧ m.active = true then some (i, m.name)
    else findOtherAux currentIdx (i + 1) t

/-- Model of `App::get_other_monitor_info`: the first monitor, in list order,
that is active and has an index different from the current one. -/
def get_other_monitor_info (monitors : List Monitor) (currentIdx : Nat) : Option (Nat × String) :=
  findOtherAux currentIdx 0 monitors

/-- Model of `App::extend_relative`.  The boolean result of the executed
command is discarded by the source, hence the unused `success` argument.
Out-of-range indexing of the parallel lists would panic in the source; it is
modelled as a no-op and is unreachable for a valid selection. -/
def extend_relative (app : AppState) (direction : String) (success : Bool) :
    AppState × List HyprCommand :=
  match app.selectedMonitor with
  | none => (app, [])
  | some idx =>
    match get_other_monitor_info app.monitors idx with
    | none => (app, [])
    | some other =>
      match app.monitors[idx]?, app.configs[idx]? with
      | some m, some c =>
        (app, [HyprCommand.keywordMonitorPlaced m.name c.resolution c.refresh_rate
                 (scale_as_float c) direction other.2])
      | _, _ => (app, [])

/-- Model of `App::mirror_monitor`: copies the source scale into the target
config, then issues the mirror command whose boolean result is discarded. -/
def mirror_monitor (app : AppState) (success : Bool) : AppState × List HyprCommand :=
  match app.selectedMonitor with
  | none => (app, [])
  | some idx =>
    match get_other_monitor_info app.monitors idx with
    | none => (app, [])
    | some other =>
      match app.configs[idx]?, app.monitors[idx]?, app.configs[other.1]? with
      | some src, some m, some tgt =>
        ({ app with configs := app.configs.set other.1 { tgt with scale := src.scale } },
         [HyprCommand.keywordMonitorMirror m.name src.resolution src.refresh_rate
            (scale_as_float src) other.2])
      | _, _, _ => (app, [])

/-- Model of `App::toggle_dpms`: the command is issued either way, and
`dpms_on` is flipped exactly when the executor reports success. -/
def toggle_dpms (app : AppState) (success : Bool) : AppState × List HyprCommand :=
  match app.selectedMonitor with
  | none => (app, [])
  | some idx =>
    match app.configs[idx]?, app.monitors[idx]? with
    | some c, some m =>
      let cmd := HyprCommand.dispatchDpms (!c.dpms_on) m.name
      if success then
        ({ app with configs := app.configs.set idx { c with dpms_on := !c.dpms_on } }, [cmd])
      else (app, [cmd])
    | _, _ => (app, [])

/-! ## Invariants -/

/-- Well-formedness of a built `Monitor`: catalog keys strictly sorted (the
B-tree key order) and every rate list non-empty (the collection loop only
creates a key to push a rate onto it). -/
def MonitorWF (m : Monitor) : Prop :=
  List.Pairwise (fun p q => keyLt p.1 q.1 = true) m.modes ∧ ∀ p ∈ m.modes, p.2 ≠ []

/-- The cross-field invariant tying a `MonitorConfig` to its `Monitor`: when
the catalog is non-empty, both indices are in range, the resolution is the
`resolution_index`-th key, and the refresh rate is the
`refresh_rate_index`-th rate of that resolution. -/
def ConfigInv (m : Monitor) (c : MonitorConfig) : Prop :=
  m.modes ≠ [] →
    c.resolution_index < m.modes.length ∧
    (modeKeysC m.modes)[c.resolution_index]? = some c.resolution ∧
    ∃ rates, lookupKey c.resolution m.modes = some rates ∧
      c.refresh_rate_index < rates.length ∧
      rates[c.refresh_rate_index]? = some c.refresh_rate

/-! ## Concrete records used to instantiate the theorems -/

/-- An active single-resolution monitor record with rates 144/120/60 Hz and a
reported rate of 119.95 Hz. -/
def recA : RawRecord :=
  { name := some (r"DP-1"), disabled := some false, scale := some (mkRat 3 2),
    width := some 1, height := some 2, refreshRate := some (mkRat 11995 100),
    availableModes := [r"1x1@144Hz", r"1x1@120Hz", r"1x1@60Hz"] }

/-- The `Monitor` built from `recA`. -/
def monA : Monitor := { name := r"DP-1", active := true, modes := [((r"1x1"), [144, 120, 60])] }

/-- The `MonitorConfig` built from `recA`. -/
def confA : MonitorConfig :=
  { resolution := r"1x1", refresh_rate := 120, scale := 150,
    resolution_index := 0, refresh_rate_index := 1, dpms_on := true }

/-- A second active monitor and its config, for the app-level fixtures. -/
def monB2 : Monitor := { name := r"HDMI-1", active := true, modes := [((r"2x2"), [60])] }

/-- Config paired with `monB2`. -/
def confB2 : MonitorConfig :=
  { resolution := r"2x2", refresh_rate := 60, scale := 100,
    resolution_index := 0, refresh_rate_index := 0, dpms_on := true }

/-- Single-monitor app (no partner available). -/
def appA : AppState := { monitors := [monA], configs := [confA], selectedMonitor := some 0 }

/-- Two-monitor app with the first monitor selected. -/
def appB : AppState :=
  { monitors := [monA, monB2], configs := [confA, confB2], selectedMonitor := some 0 }

/-- `n`-fold application of a mutation, modelling `n` repeated key presses. -/
def iterOp (g : MonitorConfig → MonitorConfig) : Nat → MonitorConfig → MonitorConfig
  | 0, c => c
  | n + 1, c => iterOp g n (g c)

/-- A whole sequence of `adjust_scale` presses, left to right. -/
def applyScaleSeq (c : MonitorConfig) (dirs : List Bool) : MonitorConfig :=
  dirs.foldl adjust_scale c

theorem qsub_eq (a b : ℚ) : qsub a b = a - b := by
  have ha : ((a.den : ℚ)) ≠ 0 := by exact_mod_cast a.den_ne_zero
  have hb : ((b.den : ℚ)) ≠ 0 := by exact_mod_cast b.den_ne_zero
  rw [qsub, Rat.divInt_eq_div]
  push_cast
  conv_rhs => rw [← Rat.num_div_den a, ← Rat.num_div_den b]
  field_simp
  ring

theorem qabs_eq (a : ℚ) : qabs a = |a| := by
  unfold qabs
  split
  · rename_i h
    rw [abs_of_neg h, Rat.divInt_eq_div]
    push_cast
    rw [neg_div, Rat.num_div_den]
  · rename_i h
    rw [abs_of_nonneg (not_lt.1 h)]

theorem qmulInt_eq (a : ℚ) (k : ℤ) : qmulInt a k = a * k := by
  have ha : ((a.den : ℚ)) ≠ 0 := by exact_mod_cast a.den_ne_zero
  rw [qmulInt, Rat.divInt_eq_div]
  push_cast
  conv_rhs => rw [← Rat.num_div_den a]
  field_simp

theorem dedupTol_eq : dedupTol = 1 / 100 := by
  rw [dedupTol, Rat.mkRat_eq_div]
  norm_num

theorem matchTol_eq : matchTol = 1 / 10 := by
  rw [matchTol, Rat.mkRat_eq_div]
  norm_num

/-! ## Lemmas: the lexicographic key order -/

theorem keyLtChars_irrefl (l : List Char) : keyLtChars l l = false := by
  induction l with
  | nil => rfl
  | cons a t ih => simp [keyLtChars, ih]

theorem keyLtChars_trans {a b c : List Char} (hab : keyLtChars a b = true)
    (hbc : keyLtChars b c = true) : keyLtChars a c = true := by
  induction a generalizing b c with
  | nil =>
    cases b with
    | nil => simp [keyLtChars] at hab
    | cons y bt =>
      cases c with
      | nil => simp [keyLtChars] at hbc
      | cons z ct => simp [keyLtChars]
  | cons x at' ih =>
    cases b with
    | nil => simp [keyLtChars] at hab
    | cons y bt =>
      cases c with
      | nil => simp [keyLtChars] at hbc
      | cons z ct =>
        simp only [keyLtChars] at hab hbc ⊢
        rcases lt_trichotomy x y with hxy | hxy | hxy
        · rcases lt_trichotomy y z with hyz | hyz | hyz
          · simp [lt_trans hxy hyz]
          · subst hyz
            simp [hxy]
          · simp [lt_asymm hyz, hyz] at hbc
        · subst hxy
          simp only [lt_irrefl, if_false] at hab
          rcases lt_trichotomy x z with hxz | hxz | hxz
          · simp [hxz]
          · subst hxz
            simp only [lt_irrefl, if_false] at hbc ⊢
            exact ih hab hbc
          · simp [lt_asymm hxz, hxz] at hbc
        · simp [lt_asymm hxy, hxy] at hab

theorem keyLtChars_conn {a b : List Char} (hab : keyLtChars a b = false)
    (hba : keyLtChars b a = false) : a = b := by
  induction a generalizing b with
  | nil =>
    cases b with
    | nil => rfl
    | cons y bt => simp [keyLtChars] at hab
  | cons x at' ih =>
    cases b with
    | nil => simp [keyLtChars] at hba
    | cons y bt =>
      simp only [keyLtChars] at hab hba
      rcases lt_trichotomy x y with hxy | hxy | hxy
      · simp [hxy] at hab
      · subst hxy
        simp only [lt_irrefl, if_false] at hab hba
        rw [ih hab hba]
      · simp [hxy] at hba

theorem keyLt_ne {a b : String} (h : keyLt a b = true) : a ≠ b := by
  intro hab
  subst hab
  rw [keyLt, keyLtChars_irrefl] at h
  exact Bool.false_ne_true h

theorem keyLt_conn {a b : String} (hab : keyLt a b = false) (hba : keyLt b a = false) :
    a = b := by
  cases a with
  | mk da =>
    cases b with
    | mk db =>
      rw [keyLt] at hab hba
      simp only at hab hba
      rw [keyLtChars_conn hab hba]

theorem keyLt_string_trans {a b c : String} (hab : keyLt a b = true)
    (hbc : keyLt b c = true) : keyLt a c = true :=
  keyLtChars_trans hab hbc

/-! ## Lemmas: catalog construction -/

theorem mem_of_getElemOpt {α : Type _} {l : List α} {i : Nat} {a : α}
    (h : l[i]? = some a) : a ∈ l := by
  rcases List.getElem?_eq_some.1 h with ⟨hi, rfl⟩
  exact List.getElem_mem hi

/-- Keys of catalogs with pairwise-ordered (hence distinct) keys resolve by
position: the `i`-th entry is what `lookupKey` finds for the `i`-th key. -/
theorem lookupKey_getElem {m : Catalog}
    (hm : List.Pairwise (fun p q => keyLt p.1 q.1 = true) m) {i : Nat} {p : String × List ℚ}
    (h : m[i]? = some p) : lookupKey p.1 m = some p.2 := by
  induction m generalizing i with
  | nil => simp at h
  | cons q t ih =>
    cases i with
    | zero =>
      simp only [List.getElem?_cons_zero, Option.some_inj] at h
      subst h
      simp [lookupKey]
    | succ j =>
      simp only [List.getElem?_cons_succ] at h
      have hpq : keyLt q.1 p.1 = true :=
        (List.pairwise_cons.1 hm).1 p (mem_of_getElemOpt h)
      have hne : p.1 ≠ q.1 := fun hh => keyLt_ne hpq hh.symm
      simp only [lookupKey, if_neg hne]
      exact ih (List.pairwise_cons.1 hm).2 h

/-- Entries of `insertRate` carry the inserted key or come from the original
catalog. -/
theorem insertRate_mem {k : String} {r : ℚ} {m : Catalog} {x : String × List ℚ}
    (h : x ∈ insertRate k r m) : x.1 = k ∨ x ∈ m := by
  induction m with
  | nil =>
    simp [insertRate] at h
    subst h
    left
    rfl
  | cons p t ih =>
    simp only [insertRate] at h
    by_cases h1 : k = p.1
    · rw [if_pos h1] at h
      rcases List.mem_cons.1 h with h2 | h2
      · subst h2
        left
        exact h1.symm
      · right
        exact List.mem_cons_of_mem _ h2
    · rw [if_neg h1] at h
      by_cases h2 : keyLt k p.1 = true
      · rw [if_pos h2] at h
        rcases List.mem_cons.1 h with h3 | h3
        · subst h3
          left
          rfl
        · right
          exact h3
      · rw [if_neg h2] at h
        rcases List.mem_cons.1 h with h3 | h3
        · right
          subst h3
          exact List.mem_cons_self _ _
        · rcases ih h3 with h4 | h4
          · left
            exact h4
          · right
            exact List.mem_cons_of_mem _ h4

/-- `insertRate` keeps catalog keys strictly sorted. -/
theorem insertRate_pairwise {k : String} {r : ℚ} {m : Catalog}
    (hm : List.Pairwise (fun p q => keyLt p.1 q.1 = true) m) :
    List.Pairwise (fun p q => keyLt p.1 q.1 = true) (insertRate k r m) := by
  induction m with
  | nil => simp [insertRate]
  | cons p t ih =>
    obtain ⟨hp, ht⟩ := List.pairwise_cons.1 hm
    simp only [insertRate]
    by_cases h1 : k = p.1
    · rw [if_pos h1]
      exact List.pairwise_cons.2 ⟨hp, ht⟩
    · rw [if_neg h1]
      by_cases h2 : keyLt k p.1 = true
      · rw [if_pos h2]
        refine List.pairwise_cons.2 ⟨?_, hm⟩
        intro q hq
        rcases List.mem_cons.1 hq with h3 | h3
        · subst h3
          exact h2
        · exact keyLt_string_trans h2 (hp q h3)
      · rw [if_neg h2]
        refine List.pairwise_cons.2 ⟨?_, ih ht⟩
        intro x hx
        rcases insertRate_mem hx with h3 | h3
        · rw [h3]
          have hk : keyLt k p.1 = false := Bool.eq_false_iff.2 h2
          by_contra hc
          have hpk : keyLt p.1 k = false := Bool.eq_false_iff.2 hc
          exact h1 (keyLt_conn hk hpk)
        · exact hp x h3

/-- `insertRate` keeps every rate list non-empty. -/
theorem insertRate_values_ne_nil {k : String} {r : ℚ} {m : Catalog}
    (hm : ∀ p ∈ m, p.2 ≠ []) : ∀ p ∈ insertRate k r m, p.2 ≠ [] := by
  induction m with
  | nil =>
    intro p hp
    simp [insertRate] at hp
    subst hp
    simp
  | cons q t ih =>
    intro p hp
    simp only [insertRate] at hp
    by_cases h1 : k = q.1
    · rw [if_pos h1] at hp
      rcases List.mem_cons.1 hp with h2 | h2
      · subst h2
        simp
      · exact hm p (List.mem_cons_of_mem _ h2)
    · rw [if_neg h1] at hp
      by_cases h2 : keyLt k q.1 = true
      · rw [if_pos h2] at hp
        rcases List.mem_cons.1 hp with h3 | h3
        · subst h3
          simp
        · exact hm p h3
      · rw [if_neg h2] at hp
        rcases List.mem_cons.1 hp with h3 | h3
        · rw [h3]
          exact hm _ (List.mem_cons_self _ _)
        · exact ih (fun x hx => hm x (List.mem_cons_of_mem _ hx)) p h3

/-- The collection loop preserves sorted keys and non-empty rate lists. -/
theorem foldl_collect_invariant (l : List String) :
    ∀ m : Catalog, List.Pairwise (fun p q => keyLt p.1 q.1 = true) m → (∀ p ∈ m, p.2 ≠ []) →
      List.Pairwise (fun p q => keyLt p.1 q.1 = true) (List.foldl collectStep m l) ∧
      (∀ p ∈ List.foldl collectStep m l, p.2 ≠ []) := by
  induction l with
  | nil => exact fun m h1 h2 => ⟨h1, h2⟩
  | cons s t ih =>
    intro m h1 h2
    simp only [List.foldl_cons]
    rcases hc : parseMode s with _ | p
    · have : collectStep m s = m := by simp [collectStep, hc]
      rw [this]
      exact ih m h1 h2
    · have : collectStep m s = insertRate p.1 p.2 m := by simp [collectStep, hc]
      rw [this]
      exact ih _ (insertRate_pairwise h1) (insertRate_values_ne_nil h2)

/-- `sortDesc` of a non-empty list is non-empty (permutation-free argument:
`insertDesc` never returns the empty list). -/
theorem insertDesc_ne_nil (a : ℚ) (l : List ℚ) : insertDesc a l ≠ [] := by
  cases l with
  | nil => simp [insertDesc]
  | cons b t =>
    simp only [insertDesc]
    split <;> simp

theorem normalizeRates_ne_nil {l : List ℚ} (h : l ≠ []) : normalizeRates l ≠ [] := by
  have hs : sortDesc l ≠ [] := by
    cases l with
    | nil => exact absurd rfl h
    | cons a t => exact insertDesc_ne_nil a (sortDesc t)
  rw [normalizeRates]
  rcases hd : sortDesc l with _ | ⟨x, xs⟩
  · exact absurd hd hs
  · simp [dedupNear]

/-- The catalog built by `parse_modes` has sorted keys and non-empty rate
lists. -/
theorem parse_modes_wf (rec : RawRecord) :
    List.Pairwise (fun p q => keyLt p.1 q.1 = true) (parse_modes rec) ∧
    (∀ p ∈ parse_modes rec, p.2 ≠ []) := by
  obtain ⟨h1, h2⟩ :=
    foldl_collect_invariant rec.availableModes [] List.Pairwise.nil (by simp)
  constructor
  · rw [parse_modes, collectModes]
    exact List.Pairwise.map _ (fun a b hab => hab) h1
  · intro p hp
    rw [parse_modes] at hp
    rcases List.mem_map.1 hp with ⟨q, hq, rfl⟩
    exact normalizeRates_ne_nil (h2 q hq)

/-- `lookupKey` commutes with the per-value normalisation map. -/
theorem lookupKey_map_normalize (k : String) (m : Catalog) :
    lookupKey k (m.map (fun p => (p.1, normalizeRates p.2)))
      = (lookupKey k m).map normalizeRates := by
  induction m with
  | nil => rfl
  | cons p t ih =>
    simp only [List.map_cons, lookupKey]
    split
    · rfl
    · exact ih

/-! ## Lemmas: sorting and separation of rate lists -/

theorem insertDesc_mem {a x : ℚ} {l : List ℚ} (h : x ∈ insertDesc a l) : x = a ∨ x ∈ l := by
  induction l with
  | nil =>
    simp [insertDesc] at h
    left
    exact h
  | cons b t ih =>
    simp only [insertDesc] at h
    split at h
    · rcases List.mem_cons.1 h with h1 | h1
      · left
        exact h1
      · right
        exact h1
    · rcases List.mem_cons.1 h with h1 | h1
      · right
        rw [h1]
        exact List.mem_cons_self _ _
      · rcases ih h1 with h2 | h2
        · left
          exact h2
        · right
          exact List.mem_cons_of_mem _ h2

theorem insertDesc_sorted {a : ℚ} {l : List ℚ}
    (h : List.Pairwise (fun x y => y ≤ x) l) :
    List.Pairwise (fun x y => y ≤ x) (insertDesc a l) := by
  induction l with
  | nil => simp [insertDesc]
  | cons b t ih =>
    obtain ⟨hb, ht⟩ := List.pairwise_cons.1 h
    simp only [insertDesc]
    split
    · rename_i hba
      refine List.pairwise_cons.2 ⟨?_, h⟩
      intro y hy
      rcases List.mem_cons.1 hy with h1 | h1
      · rw [h1]
        exact le_of_lt hba
      · exact le_trans (hb y h1) (le_of_lt hba)
    · rename_i hba
      refine List.pairwise_cons.2 ⟨?_, ih ht⟩
      intro y hy
      rcases insertDesc_mem hy with h1 | h1
      · rw [h1]
        exact not_lt.1 hba
      · exact hb y h1

theorem sortDesc_sorted (l : List ℚ) : List.Pairwise (fun x y => y ≤ x) (sortDesc l) := by
  induction l with
  | nil => exact List.Pairwise.nil
  | cons a t ih => exact insertDesc_sorted ih

theorem nearEq_iff (a b : ℚ) : nearEq a b = true ↔ |a - b| < 1 / 100 := by
  rw [nearEq, decide_eq_true_iff, qabs_eq, qsub_eq, dedupTol_eq]

theorem rateMatches_iff (target r : ℚ) : rateMatches target r = true ↔ |r - target| < 1 / 10 := by
  rw [rateMatches, decide_eq_true_iff, qabs_eq, qsub_eq, matchTol_eq]

/-- Core dedup property: scanning a descending list while dropping elements
within `0.01` of the last retained one leaves only elements at least `0.01`
below it, pairwise separated by at least `0.01`. -/
theorem dedupNearLoop_spec {rest : List ℚ} :
    ∀ {kept : ℚ}, List.Pairwise (fun x y => y ≤ x) rest → (∀ x ∈ rest, x ≤ kept) →
      (∀ y ∈ dedupNearLoop kept rest, y ≤ kept - 1 / 100) ∧
      List.Pairwise (fun x y => y ≤ x - 1 / 100) (dedupNearLoop kept rest) := by
  induction rest with
  | nil => exact fun _ _ => ⟨by simp [dedupNearLoop], List.Pairwise.nil⟩
  | cons a t ih =>
    intro kept hs hle
    obtain ⟨ha, ht⟩ := List.pairwise_cons.1 hs
    simp only [dedupNearLoop]
    by_cases hne : nearEq a kept = true
    · rw [if_pos hne]
      exact ih ht fun x hx => le_trans (ha x hx) (hle a (List.mem_cons_self _ _))
    · rw [if_neg hne]
      have hak : a ≤ kept := hle a (List.mem_cons_self _ _)
      have hgap : a ≤ kept - 1 / 100 := by
        have h1 : ¬ |a - kept| < 1 / 100 := fun hc => hne ((nearEq_iff a kept).2 hc)
        have h2 : |a - kept| = kept - a := by
          rw [abs_sub_comm]
          exact abs_of_nonneg (by linarith)
        rw [h2] at h1
        linarith [not_lt.1 h1]
      obtain ⟨ihle, ihpw⟩ := @ih a ht ha
      refine ⟨?_, List.pairwise_cons.2 ⟨ihle, ihpw⟩⟩
      intro y hy
      rcases List.mem_cons.1 hy with h1 | h1
      · rw [h1]
        exact hgap
      · have := ihle y h1
        linarith

/-- Every normalised rate list is pairwise separated by at least `0.01`
(hence strictly descending). -/
theorem normalizeRates_separated (l : List ℚ) :
    List.Pairwise (fun x y => y ≤ x - 1 / 100) (normalizeRates l) := by
  rw [normalizeRates]
  rcases hd : sortDesc l with _ | ⟨x, xs⟩
  · exact List.Pairwise.nil
  · have hs := sortDesc_sorted l
    rw [hd] at hs
    obtain ⟨hx, hxs⟩ := List.pairwise_cons.1 hs
    obtain ⟨hle, hpw⟩ := @dedupNearLoop_spec _ x hxs hx
    simp only [dedupNear]
    refine List.pairwise_cons.2 ⟨?_, hpw⟩
    intro y hy
    exact hle y hy

/-! ## Lemmas: first-minimum selection and first-match position -/

theorem minIdx_cons_cons (f : String → Int) (a b : String) (u : List String) :
    minIdx f (a :: b :: u)
      = if f a ≤ f ((b :: u).getD (minIdx f (b :: u)) (String.mk [])) then 0
        else minIdx f (b :: u) + 1 := rfl

/-- `minIdx` returns a valid index of a minimiser, and everything before it
is strictly larger: the first-minimum contract of `Iterator::min_by_key`. -/
theorem minIdx_spec (f : String → Int) :
    ∀ l : List String, l ≠ [] →
      minIdx f l < l.length ∧
      (∀ j, j < l.length →
        f (l.getD (minIdx f l) (String.mk [])) ≤ f (l.getD j (String.mk []))) ∧
      (∀ j, j < minIdx f l →
        f (l.getD (minIdx f l) (String.mk [])) < f (l.getD j (String.mk []))) := by
  intro l
  induction l with
  | nil => simp
  | cons a t ih =>
    intro _
    cases t with
    | nil =>
      refine ⟨by simp [minIdx], ?_, by simp [minIdx]⟩
      intro j hj
      have hj0 : j = 0 := by simpa using Nat.lt_one_iff.1 (by simpa using hj)
      subst hj0
      simp [minIdx]
    | cons b u =>
      obtain ⟨hr, hmin, hfirst⟩ := ih (by simp)
      rw [minIdx_cons_cons]
      by_cases h : f a ≤ f ((b :: u).getD (minIdx f (b :: u)) (String.mk []))
      · rw [if_pos h]
        refine ⟨by simp, ?_, by simp⟩
        intro j hj
        cases j with
        | zero => simp
        | succ j' =>
          rw [List.getD_cons_zero, List.getD_cons_succ]
          exact le_trans h (hmin j' (by simpa using hj))
      · rw [if_neg h]
        have hlt : f ((b :: u).getD (minIdx f (b :: u)) (String.mk [])) < f a := not_le.1 h
        refine ⟨by simpa using hr, ?_, ?_⟩
        · intro j hj
          rw [List.getD_cons_succ]
          cases j with
          | zero => exact le_of_lt hlt
          | succ j' =>
            rw [List.getD_cons_succ]
            exact hmin j' (by simpa using hj)
        · intro j hj
          rw [List.getD_cons_succ]
          cases j with
          | zero => exact hlt
          | succ j' =>
            rw [List.getD_cons_succ]
            exact hfirst j' (by omega)

/-- `position` finds the first index satisfying the predicate. -/
theorem position_some_spec (p : ℚ → Bool) :
    ∀ {l : List ℚ} {i : Nat}, position p l = some i →
      i < l.length ∧ p (l.getD i 0) = true ∧ ∀ j, j < i → p (l.getD j 0) = false := by
  intro l
  induction l with
  | nil =>
    intro i h
    simp [position] at h
  | cons a t ih =>
    intro i h
    simp only [position] at h
    split at h
    · rename_i ha
      cases h
      exact ⟨by simp, by simpa using ha, by simp⟩
    · rename_i ha
      rcases Option.map_eq_some'.1 h with ⟨j, hj, rfl⟩
      obtain ⟨h1, h2, h3⟩ := ih hj
      refine ⟨by simpa using h1, by simpa using h2, ?_⟩
      intro j' hj'
      cases j' with
      | zero =>
        rw [List.getD_cons_zero]
        exact Bool.eq_false_iff.2 ha
      | succ j'' =>
        rw [List.getD_cons_succ]
        exact h3 j'' (by omega)

/-- When `position` fails, nothing satisfies the predicate. -/
theorem position_none_spec (p : ℚ → Bool) :
    ∀ {l : List ℚ}, position p l = none → ∀ x ∈ l, p x = false := by
  intro l
  induction l with
  | nil => simp
  | cons a t ih =>
    intro h x hx
    simp only [position] at h
    split at h
    · cases h
    · rename_i ha
      rcases List.mem_cons.1 hx with h1 | h1
      · rw [h1]
        exact Bool.eq_false_iff.2 ha
      · exact ih (by simpa using h) x h1

/-! ## Lemmas: the cross-field invariant -/

/-- Positional lookup in a key-sorted catalog: the `i`-th key resolves to the
`i`-th rate list. -/
theorem lookup_at_index {modes : Catalog}
    (hpw : List.Pairwise (fun p q => keyLt p.1 q.1 = true) modes) {i : Nat}
    (hi : i < modes.length) :
    (modeKeysC modes).getD i (String.mk []) = (modes[i]).1 ∧
    lookupKey ((modeKeysC modes).getD i (String.mk [])) modes = some ((modes[i]).2) := by
  have hget : modes[i]? = some (modes[i]) := List.getElem?_eq_getElem hi
  have hkey : (modeKeysC modes).getD i (String.mk []) = (modes[i]).1 := by
    rw [modeKeysC, List.getD_eq_getElem?_getD, List.getElem?_map, hget]
    rfl
  refine ⟨hkey, ?_⟩
  rw [hkey]
  exact lookupKey_getElem hpw hget

/-- A config whose indices are in range, whose resolution is the
`resolution_index`-th key and whose rate is read off the catalog, satisfies
the invariant. -/
theorem built_config_inv {modes : Catalog} {nm : String} {act : Bool} {sc : Int}
    {dp : Bool} {i fi : Nat}
    (hpw : List.Pairwise (fun p q => keyLt p.1 q.1 = true) modes)
    (hi : i < modes.length) (hfi : fi < ((modes[i]).2).length) :
    ConfigInv { name := nm, active := act, modes := modes }
      { resolution := (modeKeysC modes).getD i (String.mk []),
        refresh_rate :=
          ((lookupKey ((modeKeysC modes).getD i (String.mk [])) modes).bind
            (fun rates => rates[fi]?)).getD 60,
        scale := sc, resolution_index := i, refresh_rate_index := fi, dpms_on := dp } := by
  intro _
  obtain ⟨hkey, hlook⟩ := lookup_at_index hpw hi
  have hkeylen : (modeKeysC modes).length = modes.length := List.length_map _ _
  refine ⟨hi, ?_, (modes[i]).2, ?_, hfi, ?_⟩
  · have hik : i < (modeKeysC modes).length := by omega
    rw [List.getElem?_eq_getElem hik, List.getD_eq_getElem?_getD,
      List.getElem?_eq_getElem hik]
    rfl
  · exact hlook
  · rw [hlook]
    simp only [Option.some_bind]
    rw [List.getElem?_eq_getElem hfi]
    rfl

/-- The refresh index chosen for a resolution with a non-empty rate list is
in range. -/
theorem chooseRefreshIdx_lt {rec : RawRecord} {modes : Catalog} {res : String}
    {rates : List ℚ} (hl : lookupKey res modes = some rates) (hne : rates ≠ []) :
    chooseRefreshIdx rec modes res < rates.length := by
  rw [chooseRefreshIdx, hl]
  simp only [Option.some_bind]
  rcases hp : position (rateMatches (rec.refreshRate.getD 60)) rates with _ | j
  · simpa using List.length_pos.2 hne
  · simpa using (position_some_spec _ hp).1

/-- The index pair chosen by `find_current_mode` is in range for a
well-formed non-empty catalog, whatever the activity flag. -/
theorem find_current_mode_bounds {rec : RawRecord} {modes : Catalog} {active : Bool}
    (hpw : List.Pairwise (fun p q => keyLt p.1 q.1 = true) modes)
    (hval : ∀ p ∈ modes, p.2 ≠ []) (hne : modes ≠ []) :
    (find_current_mode rec modes active).1 < modes.length ∧
    ∀ rates,
      lookupKey ((modeKeysC modes).getD (find_current_mode rec modes active).1 (String.mk []))
        modes = some rates →
      (find_current_mode rec modes active).2 < rates.length := by
  have hkne : modeKeysC modes ≠ [] := by
    rw [modeKeysC]
    simpa using hne
  have hie : modes.isEmpty = false := by
    cases modes with
    | nil => exact absurd rfl hne
    | cons p t => rfl
  have hlenpos : 0 < modes.length := List.length_pos.2 hne
  cases active with
  | false =>
    have hfm : find_current_mode rec modes false = (0, 0) := by
      simp [find_current_mode]
    rw [hfm]
    refine ⟨hlenpos, ?_⟩
    intro rates hlr
    obtain ⟨_, hlook⟩ := lookup_at_index hpw hlenpos
    rw [hlook] at hlr
    cases hlr
    exact List.length_pos.2 (hval _ (List.getElem_mem hlenpos))
  | true =>
    have hfm : find_current_mode rec modes true =
        (chooseResIdx rec modes,
         chooseRefreshIdx rec modes
           ((modeKeysC modes).getD (chooseResIdx rec modes) (String.mk []))) := by
      simp [find_current_mode, hie]
    rw [hfm]
    have hkeylen : (modeKeysC modes).length = modes.length := List.length_map _ _
    have hi : chooseResIdx rec modes < modes.length := by
      rw [chooseResIdx]
      have hb :=
        (minIdx_spec (fun s => resolution_distance s (rec.width.getD 0) (rec.height.getD 0))
          (modeKeysC modes) hkne).1
      omega
    refine ⟨hi, ?_⟩
    intro rates hlr
    obtain ⟨_, hlook⟩ := lookup_at_index hpw hi
    have hrts : rates = (modes[chooseResIdx rec modes]).2 := by
      rw [hlook] at hlr
      exact (Option.some_inj.1 hlr).symm
    have hrne : rates ≠ [] := by
      rw [hrts]
      exact hval _ (List.getElem_mem hi)
    exact chooseRefreshIdx_lt hlr hrne

/-- Build establishes the invariant: any pair produced by
`parse_single_monitor` is well-formed and satisfies `ConfigInv`. -/
theorem parse_single_monitor_inv {rec : RawRecord} {m : Monitor} {c : MonitorConfig}
    (h : parse_single_monitor rec = some (m, c)) : MonitorWF m ∧ ConfigInv m c := by
  rcases hn : rec.name with _ | nm
  · simp only [parse_single_monitor, hn] at h
    cases h
  · simp only [parse_single_monitor, hn] at h
    by_cases hemp : nm.data.isEmpty
    · rw [if_pos hemp] at h
      cases h
    · rw [if_neg hemp] at h
      simp only [Option.some_inj] at h
      have hm := congrArg Prod.fst h
      have hc := congrArg Prod.snd h
      simp only at hm hc
      subst hm
      subst hc
      obtain ⟨hpw, hval⟩ := parse_modes_wf rec
      refine ⟨⟨hpw, hval⟩, ?_⟩
      by_cases hmodes : parse_modes rec = []
      · intro hne
        exact absurd hmodes hne
      · obtain ⟨hi, hfi⟩ :=
          @find_current_mode_bounds rec (parse_modes rec) (!(rec.disabled.getD true))
            hpw hval hmodes
        obtain ⟨_, hlook⟩ := lookup_at_index hpw hi
        exact built_config_inv hpw hi (by simpa using hfi _ hlook)

/-- `cycle_resolution` re-establishes the invariant on any well-formed
monitor (it rebuilds every invariant-relevant field from the new index). -/
theorem cycle_resolution_inv {m : Monitor} {c : MonitorConfig} {inc : Bool}
    (hwf : MonitorWF m) : ConfigInv m (cycle_resolution m c inc) := by
  intro hne
  obtain ⟨hpw, hval⟩ := hwf
  have hkne : modeKeysC m.modes ≠ [] := by
    rw [modeKeysC]
    simpa using hne
  have hkie : (modeKeysC m.modes).isEmpty = false := by
    rcases hk : modeKeysC m.modes with _ | ⟨p, t⟩
    · exact absurd hk hkne
    · rfl
  have hkeylen : (modeKeysC m.modes).length = m.modes.length := List.length_map _ _
  have hklen : 0 < (modeKeysC m.modes).length := by
    rw [hkeylen]
    exact List.length_pos.2 hne
  set n := (modeKeysC m.modes).length with hn
  set i := (if inc then (c.resolution_index + 1) % n
            else (c.resolution_index + n - 1) % n) with hidef
  have hi : i < m.modes.length := by
    rw [← hkeylen, hn]
    rw [hidef]
    split <;> exact Nat.mod_lt _ hklen
  obtain ⟨hkey, hlook⟩ := lookup_at_index hpw hi
  have hrne : (m.modes[i]).2 ≠ [] := hval _ (List.getElem_mem hi)
  rcases hr : (m.modes[i]).2 with _ | ⟨r0, rrest⟩
  · exact absurd hr hrne
  · have hres : cycle_resolution m c inc =
        { c with resolution_index := i,
                 resolution := (modeKeysC m.modes).getD i (String.mk []),
                 refresh_rate_index := 0,
                 refresh_rate := r0 } := by
      rw [cycle_resolution]
      simp only [hkie, Bool.false_eq_true, if_false]
      rw [← hidef, hlook, hr]
      rfl
    rw [hres]
    refine ⟨hi, ?_, (m.modes[i]).2, ?_, ?_, ?_⟩
    · have hik : i < (modeKeysC m.modes).length := by omega
      rw [List.getElem?_eq_getElem hik, List.getD_eq_getElem?_getD,
        List.getElem?_eq_getElem hik]
      rfl
    · exact hlook
    · rw [hr]
      simp
    · rw [hr]
      simp

/-- `cycle_refresh_rate` preserves the invariant. -/
theorem cycle_refresh_rate_inv {m : Monitor} {c : MonitorConfig} {inc : Bool}
    (hinv : ConfigInv m c) : ConfigInv m (cycle_refresh_rate m c inc) := by
  intro hne
  obtain ⟨hi, hkey, rates, hlook, hfi, hrate⟩ := hinv hne
  have hrne : rates ≠ [] := by
    intro hcon
    rw [hcon] at hfi
    simp at hfi
  have hrie : rates.isEmpty = false := by
    rcases hr : rates with _ | ⟨r0, rrest⟩
    · exact absurd hr hrne
    · rfl
  have hlen : 0 < rates.length := List.length_pos.2 hrne
  set j := (if inc then (c.refresh_rate_index + 1) % rates.length
            else (c.refresh_rate_index + rates.length - 1) % rates.length) with hjdef
  have hj : j < rates.length := by
    rw [hjdef]
    split <;> exact Nat.mod_lt _ hlen
  have hres : cycle_refresh_rate m c inc =
      { c with refresh_rate_index := j, refresh_rate := rates.getD j 60 } := by
    rw [cycle_refresh_rate, hlook]
    simp only [hrie, Bool.false_eq_true, if_false]
  rw [hres]
  refine ⟨hi, hkey, rates, hlook, hj, ?_⟩
  rw [List.getElem?_eq_getElem hj, List.getD_eq_getElem?_getD,
    List.getElem?_eq_getElem hj]
  rfl

/-- `adjust_scale` touches only `scale` and preserves the invariant. -/
theorem adjust_scale_inv {m : Monitor} {c : MonitorConfig} {inc : Bool}
    (hinv : ConfigInv m c) : ConfigInv m (adjust_scale c inc) := hinv

/-- The invariant does not mention `scale` or `dpms_on`, so the field
updates performed by `mirror_monitor` (scale copy) and `toggle_dpms` (power
flip) preserve it. -/
theorem scale_dpms_update_inv {m : Monitor} {c : MonitorConfig} {s : Int} {b : Bool}
    (hinv : ConfigInv m c) : ConfigInv m { c with scale := s, dpms_on := b } := hinv

/-! ## Lemmas: cycling round-trips -/

theorem iterOp_fixed {g : MonitorConfig → MonitorConfig} (hg : ∀ x, g x = x) :
    ∀ n c, iterOp g n c = c := by
  intro n
  induction n with
  | zero => intro c; rfl
  | succ k ih =>
    intro c
    rw [iterOp, hg c, ih c]

/-- With an empty key list, `cycle_resolution` is a no-op. -/
theorem cycle_resolution_nil {m : Monitor} (hk : modeKeysC m.modes = [])
    (c : MonitorConfig) (inc : Bool) : cycle_resolution m c inc = c := by
  rw [cycle_resolution]
  simp [hk]

/-- The resolution index moved by one `cycle_resolution` step. -/
theorem cycle_resolution_index_step {m : Monitor} (hk : modeKeysC m.modes ≠ [])
    (c : MonitorConfig) (inc : Bool) :
    (cycle_resolution m c inc).resolution_index =
      if inc then (c.resolution_index + 1) % (modeKeysC m.modes).length
      else (c.resolution_index + (modeKeysC m.modes).length - 1) % (modeKeysC m.modes).length := by
  have hkie : (modeKeysC m.modes).isEmpty = false := by
    rcases hk2 : modeKeysC m.modes with _ | ⟨p, t⟩
    · exact absurd hk2 hk
    · rfl
  rw [cycle_resolution]
  simp only [hkie, Bool.false_eq_true, if_false]
  rcases hl : lookupKey ((modeKeysC m.modes).getD
      (if inc then (c.resolution_index + 1) % (modeKeysC m.modes).length
       else (c.resolution_index + (modeKeysC m.modes).length - 1) % (modeKeysC m.modes).length)
      (String.mk [])) m.modes with _ | rates
  · simp [hl]
  · simp [hl]

/-- Forward cycling `n + 1` times advances the resolution index by `n + 1`
modulo the key count. -/
theorem iterOp_cycle_resolution_fwd {m : Monitor} (hk : modeKeysC m.modes ≠ []) :
    ∀ n c, (iterOp (fun x => cycle_resolution m x true) (n + 1) c).resolution_index
      = (c.resolution_index + (n + 1)) % (modeKeysC m.modes).length := by
  intro n
  induction n with
  | zero =>
    intro c
    rw [iterOp, iterOp]
    have := cycle_resolution_index_step hk c true
    simp only [if_true] at this
    exact this
  | succ k ih =>
    intro c
    rw [show iterOp (fun x => cycle_resolution m x true) (k + 1 + 1) c
        = iterOp (fun x => cycle_resolution m x true) (k + 1) (cycle_resolution m c true)
        from rfl]
    rw [ih (cycle_resolution m c true)]
    have hstep := cycle_resolution_index_step hk c true
    simp only [if_true] at hstep
    rw [hstep, Nat.mod_add_mod]
    ring_nf

/-- Backward cycling `n + 1` times retreats the resolution index by `n + 1`
steps of `len - 1` modulo the key count. -/
theorem iterOp_cycle_resolution_bwd {m : Monitor} (hk : modeKeysC m.modes ≠ []) :
    ∀ n c, (iterOp (fun x => cycle_resolution m x false) (n + 1) c).resolution_index
      = (c.resolution_index + (n + 1) * ((modeKeysC m.modes).length - 1))
          % (modeKeysC m.modes).length := by
  have hlen : 0 < (modeKeysC m.modes).length := List.length_pos.2 hk
  obtain ⟨L, hL⟩ : ∃ L, (modeKeysC m.modes).length = L + 1 :=
    ⟨(modeKeysC m.modes).length - 1, by omega⟩
  intro n
  induction n with
  | zero =>
    intro c
    rw [iterOp, iterOp]
    have hstep := cycle_resolution_index_step hk c false
    simp only [Bool.false_eq_true, if_false] at hstep
    rw [hstep]
    congr 1
    omega
  | succ k ih =>
    intro c
    rw [show iterOp (fun x => cycle_resolution m x false) (k + 1 + 1) c
        = iterOp (fun x => cycle_resolution m x false) (k + 1) (cycle_resolution m c false)
        from rfl]
    rw [ih (cycle_resolution m c false)]
    have hstep := cycle_resolution_index_step hk c false
    simp only [Bool.false_eq_true, if_false] at hstep
    rw [hstep, Nat.mod_add_mod]
    congr 1
    rw [hL]
    have he : c.resolution_index + (L + 1) - 1 = c.resolution_index + L := by omega
    rw [he]
    simp only [Nat.add_sub_cancel]
    ring

/-- The modular arithmetic of the round trip: `n` forward steps of `+1` and
`n` backward steps of `+ (len - 1)` cancel modulo `len`. -/
theorem roundtrip_mod (i n len : Nat) (hlen : 0 < len) (hi : i < len) :
    ((i + n) % len + n * (len - 1)) % len = i := by
  rw [Nat.mod_add_mod]
  have hexp : i + n + n * (len - 1) = i + n * len := by
    have h1 : n * len = n * (len - 1) + n := by
      have : len = (len - 1) + 1 := by omega
      calc n * len = n * ((len - 1) + 1) := by rw [← this]
      _ = n * (len - 1) + n := by ring
    omega
  rw [hexp, Nat.add_mul_mod_self_right]
  exact Nat.mod_eq_of_lt hi

/-- `cycle_refresh_rate` never changes the selected resolution. -/
theorem cycle_refresh_rate_resolution (m : Monitor) (c : MonitorConfig) (inc : Bool) :
    (cycle_refresh_rate m c inc).resolution = c.resolution := by
  rw [cycle_refresh_rate]
  rcases hl : lookupKey c.resolution m.modes with _ | rates
  · rfl
  · rcases hr : rates.isEmpty with _ | _
    · simp [hr]
    · simp [hr]

/-- `cycle_refresh_rate` is a no-op when the resolution has no rate list. -/
theorem cycle_refresh_rate_noop_none {m : Monitor} {c : MonitorConfig} {inc : Bool}
    (hl : lookupKey c.resolution m.modes = none) : cycle_refresh_rate m c inc = c := by
  rw [cycle_refresh_rate, hl]

/-- `cycle_refresh_rate` is a no-op on an empty rate list. -/
theorem cycle_refresh_rate_noop_nil {m : Monitor} {c : MonitorConfig} {inc : Bool}
    (hl : lookupKey c.resolution m.modes = some []) : cycle_refresh_rate m c inc = c := by
  rw [cycle_refresh_rate, hl]
  rfl

/-- The refresh index moved by one `cycle_refresh_rate` step. -/
theorem cycle_refresh_rate_index_step {m : Monitor} {c : MonitorConfig} {rates : List ℚ}
    (hl : lookupKey c.resolution m.modes = some rates) (hrne : rates ≠ []) (inc : Bool) :
    (cycle_refresh_rate m c inc).refresh_rate_index =
      if inc then (c.refresh_rate_index + 1) % rates.length
      else (c.refresh_rate_index + rates.length - 1) % rates.length := by
  have hrie : rates.isEmpty = false := by
    rcases hr : rates with _ | ⟨r0, rrest⟩
    · exact absurd hr hrne
    · rfl
  rw [cycle_refresh_rate, hl]
  simp only [hrie, Bool.false_eq_true, if_false]

/-- Forward refresh cycling `n + 1` times advances the index by `n + 1`
modulo the rate count, and keeps the resolution fixed. -/
theorem iterOp_cycle_refresh_fwd {m : Monitor} {rates : List ℚ} (hrne : rates ≠ []) :
    ∀ n (c : MonitorConfig), lookupKey c.resolution m.modes = some rates →
      (iterOp (fun x => cycle_refresh_rate m x true) (n + 1) c).refresh_rate_index
        = (c.refresh_rate_index + (n + 1)) % rates.length ∧
      (iterOp (fun x => cycle_refresh_rate m x true) (n + 1) c).resolution = c.resolution := by
  intro n
  induction n with
  | zero =>
    intro c hl
    rw [iterOp, iterOp]
    have hstep := cycle_refresh_rate_index_step hl hrne true
    simp only [if_true] at hstep
    exact ⟨hstep, cycle_refresh_rate_resolution m c true⟩
  | succ k ih =>
    intro c hl
    have hres : (cycle_refresh_rate m c true).resolution = c.resolution :=
      cycle_refresh_rate_resolution m c true
    have hl2 : lookupKey (cycle_refresh_rate m c true).resolution m.modes = some rates := by
      rw [hres]
      exact hl
    obtain ⟨ih1, ih2⟩ := ih (cycle_refresh_rate m c true) hl2
    rw [show iterOp (fun x => cycle_refresh_rate m x true) (k + 1 + 1) c
        = iterOp (fun x => cycle_refresh_rate m x true) (k + 1) (cycle_refresh_rate m c true)
        from rfl]
    refine ⟨?_, by rw [ih2, hres]⟩
    rw [ih1]
    have hstep := cycle_refresh_rate_index_step hl hrne true
    simp only [if_true] at hstep
    rw [hstep, Nat.mod_add_mod]
    ring_nf

/-- Backward refresh cycling `n + 1` times retreats the index by `n + 1`
steps of `len - 1` modulo the rate count, and keeps the resolution fixed. -/
theorem iterOp_cycle_refresh_bwd {m : Monitor} {rates : List ℚ} (hrne : rates ≠ []) :
    ∀ n (c : MonitorConfig), lookupKey c.resolution m.modes = some rates →
      (iterOp (fun x => cycle_refresh_rate m x false) (n + 1) c).refresh_rate_index
        = (c.refresh_rate_index + (n + 1) * (rates.length - 1)) % rates.length ∧
      (iterOp (fun x => cycle_refresh_rate m x false) (n + 1) c).resolution = c.resolution := by
  have hlen : 0 < rates.length := List.length_pos.2 hrne
  obtain ⟨L, hL⟩ : ∃ L, rates.length = L + 1 := ⟨rates.length - 1, by omega⟩
  intro n
  induction n with
  | zero =>
    intro c hl
    rw [iterOp, iterOp]
    have hstep := cycle_refresh_rate_index_step hl hrne false
    simp only [Bool.false_eq_true, if_false] at hstep
    refine ⟨?_, cycle_refresh_rate_resolution m c false⟩
    rw [hstep]
    congr 1
    omega
  | succ k ih =>
    intro c hl
    have hres : (cycle_refresh_rate m c false).resolution = c.resolution :=
      cycle_refresh_rate_resolution m c false
    have hl2 : lookupKey (cycle_refresh_rate m c false).resolution m.modes = some rates := by
      rw [hres]
      exact hl
    obtain ⟨ih1, ih2⟩ := ih (cycle_refresh_rate m c false) hl2
    rw [show iterOp (fun x => cycle_refresh_rate m x false) (k + 1 + 1) c
        = iterOp (fun x => cycle_refresh_rate m x false) (k + 1) (cycle_refresh_rate m c false)
        from rfl]
    refine ⟨?_, by rw [ih2, hres]⟩
    rw [ih1]
    have hstep := cycle_refresh_rate_index_step hl hrne false
    simp only [Bool.false_eq_true, if_false] at hstep
    rw [hstep, Nat.mod_add_mod]
    congr 1
    rw [hL]
    have he : c.refresh_rate_index + (L + 1) - 1 = c.refresh_rate_index + L := by omega
    rw [he]
    simp only [Nat.add_sub_cancel]
    ring

/-! ## Lemmas: partner search -/

/-- What a successful scan from offset `i` means: the hit is the first
qualifying monitor at or after the offset. -/
theorem findOtherAux_some {cur : Nat} :
    ∀ {l : List Monitor} {i oi : Nat} {oname : String},
      findOtherAux cur i l = some (oi, oname) →
      ∃ k, k < l.length ∧ oi = i + k ∧ oi ≠ cur ∧
        (∃ mo, l[k]? = some mo ∧ mo.active = true ∧ mo.name = oname) ∧
        (∀ j, j < k → i + j ≠ cur → ∀ m2, l[j]? = some m2 → m2.active = false) := by
  intro l
  induction l with
  | nil =>
    intro i oi oname h
    simp [findOtherAux] at h
  | cons mo t ih =>
    intro i oi oname h
    rw [findOtherAux] at h
    split at h
    · rename_i hcond
      cases h
      exact ⟨0, by simp, by omega, hcond.1, ⟨mo, by simp, hcond.2, rfl⟩, by simp⟩
    · rename_i hcond
      obtain ⟨k, hk, hoi, hne, hhit, hbefore⟩ := ih h
      refine ⟨k + 1, by simpa using hk, by omega, hne, by simpa using hhit, ?_⟩
      intro j hj hjc m2 hm2
      cases j with
      | zero =>
        simp only [List.getElem?_cons_zero, Option.some_inj] at hm2
        subst hm2
        cases hb : mo.active with
        | false => rfl
        | true => exact absurd ⟨by omega, hb⟩ hcond
      | succ j' =>
        rw [List.getElem?_cons_succ] at hm2
        exact hbefore j' (by omega) (by omega) m2 hm2

/-- A failed scan from offset `i` means no qualifying monitor exists at or
after it. -/
theorem findOtherAux_none {cur : Nat} :
    ∀ {l : List Monitor} {i : Nat}, findOtherAux cur i l = none →
      ∀ k m2, l[k]? = some m2 → i + k ≠ cur → m2.active = false := by
  intro l
  induction l with
  | nil =>
    intro i _ k m2 hm2 _
    simp at hm2
  | cons mo t ih =>
    intro i h k m2 hm2 hkc
    rw [findOtherAux] at h
    split at h
    · cases h
    · rename_i hcond
      cases k with
      | zero =>
        simp only [List.getElem?_cons_zero, Option.some_inj] at hm2
        subst hm2
        cases hb : mo.active with
        | false => rfl
        | true => exact absurd ⟨by omega, hb⟩ hcond
      | succ k' =>
        rw [List.getElem?_cons_succ] at hm2
        exact ih h k' m2 hm2 (by omega)

/-! ## Lemmas: scale sequences -/

theorem adjust_scale_ge_floor (c : MonitorConfig) (inc : Bool) :
    50 ≤ (adjust_scale c inc).scale := by
  rw [adjust_scale]
  exact le_max_right _ _

theorem applyScaleSeq_ge_floor :
    ∀ dirs : List Bool, dirs ≠ [] → ∀ c : MonitorConfig, 50 ≤ (applyScaleSeq c dirs).scale := by
  intro dirs
  induction dirs with
  | nil =>
    intro h
    exact absurd rfl h
  | cons d rest ih =>
    intro _ c
    show 50 ≤ (List.foldl adjust_scale (adjust_scale c d) rest).scale
    cases rest with
    | nil => exact adjust_scale_ge_floor c d
    | cons d2 rest2 => exact ih (by simp) (adjust_scale c d)

theorem i32MinConst_eq : i32MinConst = -2147483648 := by norm_num [i32MinConst]

theorem i32MaxConst_eq : i32MaxConst = 2147483647 := by norm_num [i32MaxConst]

/-- The wrapped value always lies in the `i32` range. -/
theorem wrap32_bounds (x : Int) : i32MinConst ≤ wrap32 x ∧ wrap32 x ≤ i32MaxConst := by
  have h1 : 0 ≤ (x + 2 ^ 31) % 2 ^ 32 := Int.emod_nonneg _ (by norm_num)
  have h2 : (x + 2 ^ 31) % 2 ^ 32 < 2 ^ 32 := Int.emod_lt_of_pos _ (by norm_num)
  rw [wrap32, i32MinConst_eq, i32MaxConst_eq]
  norm_num at h1 h2 ⊢
  omega

/-- Wrapping is the identity inside the `i32` range. -/
theorem wrap32_id {x : Int} (h1 : i32MinConst ≤ x) (h2 : x ≤ i32MaxConst) :
    wrap32 x = x := by
  rw [i32MinConst_eq] at h1
  rw [i32MaxConst_eq] at h2
  rw [wrap32, Int.emod_eq_of_lt (by norm_num; omega) (by norm_num; omega)]
  omega

/-- One `adjust_scale` press never leaves the `i32` range from above. -/
theorem adjust_scale_le_i32Max (c : MonitorConfig) (inc : Bool) :
    (adjust_scale c inc).scale ≤ i32MaxConst := by
  rw [adjust_scale]
  apply max_le
  · exact (wrap32_bounds _).2
  · rw [MIN_SCALE, i32MaxConst_eq]
    norm_num

theorem applyScaleSeq_le_i32Max :
    ∀ dirs : List Bool, dirs ≠ [] → ∀ c : MonitorConfig,
      (applyScaleSeq c dirs).scale ≤ i32MaxConst := by
  intro dirs
  induction dirs with
  | nil =>
    intro h
    exact absurd rfl h
  | cons d rest ih =>
    intro _ c
    show (List.foldl adjust_scale (adjust_scale c d) rest).scale ≤ i32MaxConst
    cases rest with
    | nil => exact adjust_scale_le_i32Max c d
    | cons d2 rest2 => exact ih (by simp) (adjust_scale c d)

/-- `adjust_scale` computes the claimed `max(scale ± 25, 50)` exactly when
the `i32` addition does not overflow. -/
theorem adjust_scale_exact {c : MonitorConfig} {inc : Bool}
    (h1 : i32MinConst ≤ c.scale + (if inc then 25 else -25))
    (h2 : c.scale + (if inc then 25 else -25) ≤ i32MaxConst) :
    (adjust_scale c inc).scale = max (c.scale + (if inc then 25 else -25)) 50 := by
  rw [adjust_scale]
  simp only [SCALE_STEP, MIN_SCALE]
  rw [wrap32_id h1 h2]

/-- A scale at or above the floor and with headroom moves up by exactly the
step. -/
theorem adjust_scale_step_up {c : MonitorConfig} (hc : 50 ≤ c.scale)
    (hk : c.scale + 25 ≤ i32MaxConst) : (adjust_scale c true).scale = c.scale + 25 := by
  have hmin : i32MinConst ≤ c.scale + (if true then 25 else -25) := by
    rw [i32MinConst_eq]
    simp only [if_true]
    omega
  have hmax : c.scale + (if true then 25 else -25) ≤ i32MaxConst := by
    simp only [if_true]
    exact hk
  have h := adjust_scale_exact hmin hmax
  simp only [if_true] at h
  rw [h]
  exact max_eq_left (by omega)

/-- Exact growth of repeated upward presses while headroom remains. -/
theorem applyScaleSeq_replicate_exact :
    ∀ (k : Nat) (c : MonitorConfig), 50 ≤ c.scale → c.scale + 25 * k ≤ i32MaxConst →
      (applyScaleSeq c (List.replicate k true)).scale = c.scale + 25 * k := by
  intro k
  induction k with
  | zero =>
    intro c _ _
    simp [applyScaleSeq]
  | succ j ih =>
    intro c hc hk
    show (List.foldl adjust_scale (adjust_scale c true) (List.replicate j true)).scale = _
    have hstep : (adjust_scale c true).scale = c.scale + 25 := by
      apply adjust_scale_step_up hc
      push_cast at hk
      omega
    have h2 := ih (adjust_scale c true) (by rw [hstep]; omega)
      (by rw [hstep]; push_cast at hk ⊢; omega)
    rw [applyScaleSeq] at h2
    rw [h2, hstep]
    push_cast
    ring

theorem iterOp_fixpt {g : MonitorConfig → MonitorConfig} (c : MonitorConfig)
    (hg : g c = c) : ∀ n, iterOp g n c = c := by
  intro n
  induction n with
  | zero => rfl
  | succ k ih => rw [iterOp, hg, ih]

theorem collectModes_skip {pre post : List String} {s : String}
    (hs : parseMode s = none) : collectModes (pre ++ s :: post) = collectModes (pre ++ post) := by
  rw [collectModes, collectModes, List.foldl_append, List.foldl_append, List.foldl_cons]
  rw [show collectStep (List.foldl collectStep [] pre) s = List.foldl collectStep [] pre
      from by rw [collectStep, hs]]

/-! ## The claims -/

/-- Claim C1: for every `(Monitor, MonitorConfig)` pair with a non-empty
`modes` map, the cross-field invariant (`resolution_index` in range,
`refresh_rate_index` in range, `resolution` the `resolution_index`-th key,
`refresh_rate` the matching rate) holds after build and is preserved by
`cycle_resolution`, `cycle_refresh_rate`, `adjust_scale`, and the
scale/dpms field updates performed by `mirror_monitor` and `toggle_dpms`. -/
theorem c1_cross_field_invariant :
    (∀ (rec : RawRecord) (m : Monitor) (c : MonitorConfig),
      parse_single_monitor rec = some (m, c) → MonitorWF m ∧ ConfigInv m c)
    ∧ (∀ (m : Monitor) (c : MonitorConfig) (inc : Bool),
        MonitorWF m → ConfigInv m c → ConfigInv m (cycle_resolution m c inc))
    ∧ (∀ (m : Monitor) (c : MonitorConfig) (inc : Bool),
        ConfigInv m c → ConfigInv m (cycle_refresh_rate m c inc))
    ∧ (∀ (m : Monitor) (c : MonitorConfig) (inc : Bool),
        ConfigInv m c → ConfigInv m (adjust_scale c inc))
    ∧ (∀ (m : Monitor) (c : MonitorConfig) (s : Int) (b : Bool),
        ConfigInv m c → ConfigInv m { c with scale := s, dpms_on := b }) :=
  ⟨fun _ _ _ h => parse_single_monitor_inv h,
   fun _ _ _ hwf _ => cycle_resolution_inv hwf,
   fun _ _ _ hinv => cycle_refresh_rate_inv hinv,
   fun _ _ _ hinv => adjust_scale_inv hinv,
   fun _ _ _ _ hinv => scale_dpms_update_inv hinv⟩

theorem c1_witness : MonitorWF monA ∧ ConfigInv monA confA :=
  c1_cross_field_invariant.1 recA monA confA (by decide)

/-- Claim C2: in every catalog built by the mode parser, every rate list is
strictly descending with all pairs (not only adjacent ones) at least `0.01`
apart; and the rates `[60.003, 59.998, 30.0]` normalise to
`[60.003, 30.0]`, keeping the first representative. -/
theorem c2_rate_list_separation :
    (∀ (rec : RawRecord) (p : String × List ℚ), p ∈ parse_modes rec →
      List.Pairwise (fun a b => b < a ∧ 1 / 100 ≤ a - b) p.2)
    ∧ normalizeRates [(60.003 : ℚ), 59.998, 30.0] = [60.003, 30.0] := by
  constructor
  · intro rec p hp
    rw [parse_modes] at hp
    rcases List.mem_map.1 hp with ⟨q, _, rfl⟩
    exact (normalizeRates_separated q.2).imp (fun hab => ⟨by linarith, by linarith⟩)
  · have e1 : (60.003 : ℚ) = mkRat 60003 1000 := by
      rw [Rat.mkRat_eq_div]
      norm_num
    have e2 : (59.998 : ℚ) = mkRat 59998 1000 := by
      rw [Rat.mkRat_eq_div]
      norm_num
    have e3 : (30.0 : ℚ) = 30 := by norm_num
    rw [e1, e2, e3]
    decide

theorem c2_witness :
    List.Pairwise (fun a b => b < a ∧ 1 / 100 ≤ a - b) [(144 : ℚ), 120, 60] :=
  c2_rate_list_separation.1 recA ((r"1x1"), [144, 120, 60]) (by decide)

/-- Claim C9: a mode entry is parsed by splitting on `@`, stripping a
trailing `Hz` and parsing the rate; `"1920x1080@59.94Hz"` gives
`("1920x1080", 59.94)`, `"garbage"` fails, and a failing entry is skipped
without affecting the rest of the record's catalog. -/
theorem c9_mode_entry_tolerance :
    parseMode (r"1920x1080@59.94Hz") = some ((r"1920x1080"), (59.94 : ℚ))
    ∧ parseMode (r"garbage") = none
    ∧ ∀ (rec : RawRecord) (pre post : List String) (s : String), parseMode s = none →
        parse_modes { rec with availableModes := pre ++ s :: post }
          = parse_modes { rec with availableModes := pre ++ post } := by
  refine ⟨?_, by decide, ?_⟩
  · have e : (59.94 : ℚ) = mkRat 5994 100 := by
      rw [Rat.mkRat_eq_div]
      norm_num
    rw [e]
    decide
  · intro rec pre post s hs
    obtain ⟨n1, d1, s1, w1, h1, r1, a1⟩ := rec
    simp only [parse_modes]
    rw [collectModes_skip hs]

theorem c9_witness :
    parse_modes { recA with availableModes := [r"1x1@144Hz"] ++ (r"garbage") :: [r"1x1@60Hz"] }
      = parse_modes { recA with availableModes := [r"1x1@144Hz"] ++ [r"1x1@60Hz"] } :=
  c9_mode_entry_tolerance.2.2 recA [r"1x1@144Hz"] [r"1x1@60Hz"] (r"garbage") (by decide)

/-- Claim C6 (as amended): one `adjust_scale` press sets the scale to
`max(scale ± 25, 50)` whenever the `i32` addition `scale ± 25` stays in
range; any non-empty press sequence leaves the scale at least `50`; the
scale never exceeds `i32::MAX` (the `i32` type bound replaces the claimed
"no upper bound"); and below that bound the growth is unbounded: every
target `B ≤ i32::MAX - 25` is exceeded by some press sequence. -/
theorem c6_scale_floor_bounded :
    (∀ (c : MonitorConfig) (inc : Bool),
      i32MinConst ≤ c.scale + (if inc then 25 else -25) →
      c.scale + (if inc then 25 else -25) ≤ i32MaxConst →
      (adjust_scale c inc).scale = max (c.scale + (if inc then 25 else -25)) 50)
    ∧ (∀ (c : MonitorConfig) (dirs : List Bool), dirs ≠ [] →
        50 ≤ (applyScaleSeq c dirs).scale)
    ∧ (∀ (c : MonitorConfig) (dirs : List Bool), dirs ≠ [] →
        (applyScaleSeq c dirs).scale ≤ i32MaxConst)
    ∧ (∀ (c : MonitorConfig) (B : Int), B ≤ i32MaxConst - 25 →
        ∃ dirs : List Bool, dirs ≠ [] ∧ B < (applyScaleSeq c dirs).scale) := by
  refine ⟨fun c inc h1 h2 => adjust_scale_exact h1 h2,
          fun c dirs h => applyScaleSeq_ge_floor dirs h c,
          fun c dirs h => applyScaleSeq_le_i32Max dirs h c, ?_⟩
  intro c B hB
  have hfloor : 50 ≤ (adjust_scale c true).scale := adjust_scale_ge_floor c true
  by_cases hcase : B < (adjust_scale c true).scale
  · exact ⟨[true], by simp, hcase⟩
  · push_neg at hcase
    set s1 := (adjust_scale c true).scale with hs1
    set d : Nat := (B - s1).toNat with hd
    have hdint : (d : Int) = B - s1 := Int.toNat_of_nonneg (by omega)
    set k : Nat := d / 25 + 1 with hkdef
    have hdm := Nat.div_add_mod d 25
    have hmod : d % 25 < 25 := Nat.mod_lt _ (by norm_num)
    have hk1 : d + 1 ≤ 25 * k := by omega
    have hk2 : 25 * k ≤ d + 25 := by omega
    have hk1i : (d : Int) + 1 ≤ 25 * (k : Int) := by exact_mod_cast hk1
    have hk2i : 25 * (k : Int) ≤ (d : Int) + 25 := by exact_mod_cast hk2
    have hkle : s1 + 25 * (k : Int) ≤ i32MaxConst := by omega
    have hgrow := applyScaleSeq_replicate_exact k (adjust_scale c true) hfloor hkle
    refine ⟨true :: List.replicate k true, by simp, ?_⟩
    show B < (List.foldl adjust_scale (adjust_scale c true) (List.replicate k true)).scale
    rw [applyScaleSeq] at hgrow
    rw [hgrow]
    omega

/-- Claim C6, counterexample to the claim as stated: at the starting scale
`i32::MAX` an upward press wraps the `i32` addition to a negative value and
the floor clamps the result to `50`, not to the claimed
`max(i32::MAX + 25, 50)`; the scale therefore cannot grow without bound. -/
theorem c6_counterexample :
    (adjust_scale { confA with scale := i32MaxConst } true).scale = 50 ∧
    (adjust_scale { confA with scale := i32MaxConst } true).scale
      ≠ max (i32MaxConst + 25) 50 :=
  ⟨by decide, by decide⟩

theorem c6_witness :
    (adjust_scale confA true).scale = max (confA.scale + (if true then 25 else -25)) 50 :=
  c6_scale_floor_bounded.1 confA true (by decide) (by decide)

/-- Claim C5: `n` forward presses followed by `n` backward presses of
`cycle_resolution` (resp. `cycle_refresh_rate`) return `resolution_index`
(resp. `refresh_rate_index`) to its original value, for every `n ≥ 1`, with
wrap-around modulo the collection size in both directions. -/
theorem c5_cycle_roundtrip :
    ∀ (m : Monitor) (c : MonitorConfig) (n : Nat), 1 ≤ n → ConfigInv m c →
      (iterOp (fun x => cycle_resolution m x false) n
        (iterOp (fun x => cycle_resolution m x true) n c)).resolution_index
        = c.resolution_index
      ∧ (iterOp (fun x => cycle_refresh_rate m x false) n
        (iterOp (fun x => cycle_refresh_rate m x true) n c)).refresh_rate_index
        = c.refresh_rate_index := by
  intro m c n hn hinv
  obtain ⟨k, rfl⟩ : ∃ k, n = k + 1 := ⟨n - 1, by omega⟩
  constructor
  · by_cases hk : modeKeysC m.modes = []
    · rw [iterOp_fixpt c (cycle_resolution_nil hk c true) (k + 1),
        iterOp_fixpt c (cycle_resolution_nil hk c false) (k + 1)]
    · have hmne : m.modes ≠ [] := by
        intro h
        apply hk
        rw [modeKeysC, h]
        rfl
      obtain ⟨hi, _, _⟩ := hinv hmne
      have hkeylen : (modeKeysC m.modes).length = m.modes.length := List.length_map _ _
      have hlen : 0 < (modeKeysC m.modes).length := by omega
      rw [iterOp_cycle_resolution_bwd hk k _, iterOp_cycle_resolution_fwd hk k c]
      exact roundtrip_mod c.resolution_index (k + 1) _ hlen (by omega)
  · rcases hl : lookupKey c.resolution m.modes with _ | rates
    · rw [iterOp_fixpt c (cycle_refresh_rate_noop_none hl) (k + 1),
        iterOp_fixpt c (cycle_refresh_rate_noop_none hl) (k + 1)]
    · have hmne : m.modes ≠ [] := by
        intro h
        rw [h] at hl
        simp [lookupKey] at hl
      obtain ⟨_, _, rates', hl', hfi, _⟩ := hinv hmne
      have hreq : rates' = rates := by
        rw [hl] at hl'
        exact (Option.some_inj.1 hl').symm
      subst hreq
      have hrne : rates' ≠ [] := by
        intro hcon
        rw [hcon] at hfi
        simp at hfi
      obtain ⟨hf1, hf2⟩ := iterOp_cycle_refresh_fwd hrne k c hl
      obtain ⟨hb1, _⟩ := iterOp_cycle_refresh_bwd hrne k
        (iterOp (fun x => cycle_refresh_rate m x true) (k + 1) c) (by rw [hf2]; exact hl)
      rw [hb1, hf1]
      exact roundtrip_mod c.refresh_rate_index (k + 1) _ (by omega) hfi

theorem c5_witness :
    (iterOp (fun x => cycle_resolution monA x false) 2
      (iterOp (fun x => cycle_resolution monA x true) 2 confA)).resolution_index
      = confA.resolution_index :=
  (c5_cycle_roundtrip monA confA 2 (by decide)
    ((parse_single_monitor_inv
      (by decide : parse_single_monitor recA = some (monA, confA))).2)).1

/-- Claim C7: the power toggle flips `dpms_on` exactly when the command
executor reports success; on failure the whole app state (every config
field included) is unchanged; monitors and the selection are never
touched. -/
theorem c7_dpms_flip_iff_success :
    ∀ (app : AppState) (idx : Nat) (c : MonitorConfig) (mo : Monitor) (success : Bool),
      app.selectedMonitor = some idx →
      app.configs[idx]? = some c → app.monitors[idx]? = some mo →
      ((toggle_dpms app success).1.monitors = app.monitors ∧
       (toggle_dpms app success).1.selectedMonitor = app.selectedMonitor) ∧
      (success = true →
        (toggle_dpms app success).1.configs
          = app.configs.set idx { c with dpms_on := !c.dpms_on }) ∧
      (success = false → (toggle_dpms app success).1 = app) := by
  intro app idx c mo success hsel hc hm
  simp only [toggle_dpms, hsel, hc, hm]
  cases success
  · simp [hsel]
  · simp [hsel]

theorem c7_witness :
    (toggle_dpms appA true).1.configs = appA.configs.set 0 { confA with dpms_on := !confA.dpms_on } :=
  ((c7_dpms_flip_iff_success appA 0 confA monA true rfl (by decide) (by decide)).2.1) rfl

/-- Claim C8: mirroring copies only the source config's scale into the
target's config; the target's resolution, refresh rate, indices and power
state are untouched (captured by the single-field `List.set` image), the
source config is unchanged, and monitors and selection are unchanged —
whatever the external command reports. -/
theorem c8_mirror_copies_only_scale :
    ∀ (app : AppState) (idx oi : Nat) (oname : String) (src tgt : MonitorConfig)
      (mo : Monitor) (success : Bool),
      app.selectedMonitor = some idx →
      get_other_monitor_info app.monitors idx = some (oi, oname) →
      app.configs[idx]? = some src → app.monitors[idx]? = some mo →
      app.configs[oi]? = some tgt →
      (mirror_monitor app success).1.monitors = app.monitors ∧
      (mirror_monitor app success).1.selectedMonitor = app.selectedMonitor ∧
      (mirror_monitor app success).1.configs
        = app.configs.set oi { tgt with scale := src.scale } ∧
      (mirror_monitor app success).1.configs[idx]? = some src := by
  intro app idx oi oname src tgt mo success hsel hother hsrc hmon htgt
  have hne : oi ≠ idx := by
    obtain ⟨k, _, _, hnecur, _, _⟩ := findOtherAux_some hother
    exact hnecur
  simp only [mirror_monitor, hsel, hother, hsrc, hmon, htgt]
  refine ⟨by trivial, by trivial, by trivial, ?_⟩
  rw [List.getElem?_set_ne hne]
  exact hsrc

theorem c8_witness :
    (mirror_monitor appB true).1.configs = appB.configs.set 1 { confB2 with scale := confA.scale } :=
  (c8_mirror_copies_only_scale appB 0 1 (r"HDMI-1") confA confB2 monA true rfl
    (by decide) (by decide) (by decide) (by decide)).2.2.1

/-- Claim C10: the partner for extend/mirror is the first monitor in list
order that is active with an index different from the selected one; when a
partner is returned it is such a first hit, when none is returned no
qualifying monitor exists, and in that case extend-left/right and mirror
change no state and issue no command. -/
theorem c10_partner_selection :
    (∀ (monitors : List Monitor) (idx oi : Nat) (oname : String),
      get_other_monitor_info monitors idx = some (oi, oname) →
      oi ≠ idx ∧ oi < monitors.length ∧
      (∃ mo, monitors[oi]? = some mo ∧ mo.active = true ∧ mo.name = oname) ∧
      (∀ j m2, j < oi → j ≠ idx → monitors[j]? = some m2 → m2.active = false))
    ∧ (∀ (monitors : List Monitor) (idx : Nat),
        get_other_monitor_info monitors idx = none →
        ∀ j m2, monitors[j]? = some m2 → j ≠ idx → m2.active = false)
    ∧ (∀ (app : AppState) (idx : Nat) (direction : String) (success : Bool),
        app.selectedMonitor = some idx →
        get_other_monitor_info app.monitors idx = none →
        extend_relative app direction success = (app, []) ∧
        mirror_monitor app success = (app, [])) := by
  refine ⟨?_, ?_, ?_⟩
  · intro monitors idx oi oname h
    obtain ⟨k, hk, hoi, hne, ⟨mo, hmo, hact, hname⟩, hbefore⟩ := findOtherAux_some h
    have hoik : oi = k := by omega
    subst hoik
    refine ⟨hne, by omega, ⟨mo, hmo, hact, hname⟩, ?_⟩
    intro j m2 hj hjne hm2
    exact hbefore j (by omega) (by omega) m2 hm2
  · intro monitors idx h j m2 hm2 hj
    exact findOtherAux_none h j m2 hm2 (by omega)
  · intro app idx direction success hsel hnone
    constructor
    · simp [extend_relative, hsel, hnone]
    · simp [mirror_monitor, hsel, hnone]

theorem c10_witness :
    extend_relative appA (r"left") true = (appA, []) ∧ mirror_monitor appA true = (appA, []) :=
  c10_partner_selection.2.2 appA 0 (r"left") true rfl (by decide)

/-- Claim C4: for an active record with a non-empty catalog, the chosen
refresh index is the position of the first rate in the winning resolution's
list within `0.1` Hz of the reported rate, and `0` when no rate qualifies;
for rates 144/120/60 Hz and a reported 119.95 Hz the chosen pair is
`(0, 1)`. -/
theorem c4_refresh_rate_selection :
    (∀ (rec : RawRecord) (modes : Catalog) (rates : List ℚ), modes ≠ [] →
      lookupKey ((modeKeysC modes).getD (find_current_mode rec modes true).1 (String.mk []))
        modes = some rates →
      (((find_current_mode rec modes true).2 < rates.length ∧
        |rates.getD (find_current_mode rec modes true).2 0 - rec.refreshRate.getD 60| < 1 / 10 ∧
        (∀ j, j < (find_current_mode rec modes true).2 →
          ¬ |rates.getD j 0 - rec.refreshRate.getD 60| < 1 / 10))
      ∨ ((find_current_mode rec modes true).2 = 0 ∧
         ∀ r ∈ rates, ¬ |r - rec.refreshRate.getD 60| < 1 / 10)))
    ∧ find_current_mode recA (parse_modes recA) true = (0, 1) := by
  constructor
  · intro rec modes rates hne hl
    have hie : modes.isEmpty = false := by
      cases modes with
      | nil => exact absurd rfl hne
      | cons p t => rfl
    have hfm : find_current_mode rec modes true =
        (chooseResIdx rec modes,
         chooseRefreshIdx rec modes
           ((modeKeysC modes).getD (chooseResIdx rec modes) (String.mk []))) := by
      simp [find_current_mode, hie]
    rw [hfm] at hl ⊢
    simp only at hl ⊢
    rw [chooseRefreshIdx, hl]
    simp only [Option.some_bind]
    rcases hp : position (rateMatches (rec.refreshRate.getD 60)) rates with _ | j
    · right
      refine ⟨by simp, ?_⟩
      intro r hr habs
      have hf := position_none_spec _ hp r hr
      rw [(rateMatches_iff _ _).2 habs] at hf
      simp at hf
    · left
      obtain ⟨h1, h2, h3⟩ := position_some_spec _ hp
      refine ⟨by simpa using h1, ?_, ?_⟩
      · simpa using (rateMatches_iff _ _).1 h2
      · intro j' hj' habs
        have hf := h3 j' (by simpa using hj')
        rw [(rateMatches_iff _ _).2 habs] at hf
        simp at hf
  · decide

theorem c4_witness :
    (find_current_mode recA (parse_modes recA) true).2 < ([(144 : ℚ), 120, 60]).length := by
  rcases c4_refresh_rate_selection.1 recA (parse_modes recA) [(144 : ℚ), 120, 60]
      (by decide) (by decide) with h | h
  · exact h.1
  · rw [h.1]
    simp

end Hyprmonitor
